import Mathlib

/-
Verification of the recurring-purchase detection and classification engine of
the purchase-tracking service (feature-engineering module `src/features.py`).

The development is a shallow embedding of the module's four functions:

  * `identify_recurring_purchases`  (detector: normalize, group, variance tests)
  * `calculate_purchase_frequency`  (gap sequence per grouping key)
  * `categorize_text`               (keyword categorizer)
  * the text normalizer embedded in the detector (`simple_desc`)

Modelling conventions, each noted again at the definition it concerns:

  * A data frame is a list of typed rows plus the name of its (optional)
    user-id column.  The description/amount/date columns are modelled as the
    typed fields of the row (all claims presuppose their presence); presence
    of the grouping column is modelled by name, mirroring the source's
    `user_id_column is not None and user_id_column in result.columns`.
  * Monetary amounts and thresholds are exact rationals; timestamps are
    integer seconds.  numpy float arithmetic is modelled exactly; the
    comparisons `np.std(a)/np.mean(a) <= c` and `np.std(d) <= c` are encoded
    by sign analysis and squaring (the square root is monotone), and the
    IEEE outcome of a zero mean (`inf`/`nan`, both of which compare false
    under `<=` against a finite threshold) is the explicit zero-mean branch.
  * `Series.__getitem__` with an integer key on an integer-indexed series is
    a label lookup (pandas 0.x-2.x); a missing label raises `KeyError`.
    Fallible lookups return `Except Unit`.
  * `DataFrame.sort_values` uses numpy's default `kind='quicksort'` argsort
    (introsort: median-of-3 quicksort, insertion sort below 17 elements,
    heapsort at depth limit), embedded faithfully in the `Npy` namespace.
-/

namespace Homebase

/-- Decidable equality of fallible results, so concrete runs can be settled
by `decide`. -/
instance {ε α : Type} [DecidableEq ε] [DecidableEq α] : DecidableEq (Except ε α) :=
  fun a b =>
    match a, b with
    | .ok x, .ok y =>
      if h : x = y then .isTrue (by rw [h]) else .isFalse (by
        intro hc; exact h (Except.ok.inj hc))
    | .error x, .error y =>
      if h : x = y then .isTrue (by rw [h]) else .isFalse (by
        intro hc; exact h (Except.error.inj hc))
    | .ok _, .error _ => .isFalse (by intro hc; exact Except.noConfusion hc)
    | .error _, .ok _ => .isFalse (by intro hc; exact Except.noConfusion hc)

/-! ## Exact rational arithmetic

Monetary amounts, thresholds and day fractions are exact rationals.  The
embedding carries them as an integer numerator over a positive integer
denominator, with arithmetic and comparisons spelled out by
cross-multiplication, so that every concrete run reduces inside the proof
kernel.  Fractions are not normalized; all comparisons are by value. -/

structure Q where
  n : ℤ
  d : ℤ
  dpos : 0 < d
deriving DecidableEq

instance : Inhabited Q := ⟨⟨0, 1, one_pos⟩⟩

def Q.ofInt (z : ℤ) : Q := ⟨z, 1, one_pos⟩

/-- The fraction `a / b` for a nonzero `b` (the sign moves to the
numerator).  The engine only ever divides by the positive literals that
appear in the source (`24 * 3600`); the `b = 0` fallback is unreachable. -/
def Q.frac (a b : ℤ) : Q :=
  if h : 0 < b then ⟨a, b, h⟩
  else if h2 : b < 0 then ⟨-a, -b, by omega⟩
  else ⟨0, 1, one_pos⟩

def Q.add (a b : Q) : Q := ⟨a.n * b.d + b.n * a.d, a.d * b.d, mul_pos a.dpos b.dpos⟩

def Q.sub (a b : Q) : Q := ⟨a.n * b.d - b.n * a.d, a.d * b.d, mul_pos a.dpos b.dpos⟩

def Q.mul (a b : Q) : Q := ⟨a.n * b.n, a.d * b.d, mul_pos a.dpos b.dpos⟩

/-- Division of a rational by an integer (used for means: `sum / len`).
Division by zero is unreachable in the pipeline (the variance computations
only run on nonempty groups); it falls back to `0`. -/
def Q.divInt (a : Q) (k : ℤ) : Q :=
  if h : 0 < k then ⟨a.n, a.d * k, mul_pos a.dpos h⟩
  else if h2 : k < 0 then ⟨-a.n, a.d * (-k), mul_pos a.dpos (by omega)⟩
  else ⟨0, 1, one_pos⟩

/-- Value comparison `a ≤ b` by cross-multiplication (denominators are
positive). -/
def Q.ble (a b : Q) : Bool := decide (a.n * b.d ≤ b.n * a.d)

/-- Value comparison `a < b`. -/
def Q.blt (a b : Q) : Bool := decide (a.n * b.d < b.n * a.d)

/-- `np.sum`. -/
def Q.listSum (l : List Q) : Q := l.foldr Q.add (Q.ofInt 0)

/-- The rational value a `Q` denotes.  The lemmas below verify that the
cross-multiplication arithmetic realizes the field operations of `ℚ`, so
statements about the embedding can be read at the level of exact rational
values. -/
def Q.val (q : Q) : ℚ := (q.n : ℚ) / (q.d : ℚ)

/-! ## Text normalizer (`simple_desc`, features.py lines 111-116) -/

/-- Whitespace characters recognized by python's `\s` and `str.strip()`
(ASCII fragment; the claims only involve ASCII text). -/
def pySpace (c : Char) : Bool :=
  c = ' ' || c = '\t' || c = '\n' || c = '\r' || c = '\x0b' || c = '\x0c'

/-- The normalizer: `.str.lower().str.replace(r'[^a-z\s]', '', regex=True).str.strip()`.
Lowercase every character, keep only `a`-`z` and whitespace, then trim
leading and trailing whitespace.  Returned as a character list so that all
string reasoning stays on lists. -/
def normalizeDesc (s : String) : List Char :=
  let lowered := s.toList.map Char.toLower
  let kept := lowered.filter (fun c => ('a' ≤ c && c ≤ 'z') || pySpace c)
  ((kept.dropWhile pySpace).reverse.dropWhile pySpace).reverse

/-! ## Data model -/

/-- One purchase record.  `user`, `description`, `amount`, `date` model the
columns the engine reads; `date` is a timestamp in integer seconds.
`is_recurring` is the detector's output column. -/
structure Row where
  user : String
  description : String
  amount : Q
  date : ℤ
  is_recurring : Bool
deriving DecidableEq, Inhabited

/-- The fields of a row that the detector reads (it never reads
`is_recurring`; it overwrites it). -/
structure RowData where
  user : String
  description : String
  amount : Q
  date : ℤ
deriving DecidableEq, Inhabited

def Row.core (r : Row) : RowData :=
  ⟨r.user, r.description, r.amount, r.date⟩

/-- A data frame: the rows plus the name of the user-id column when the
frame has one.  The description/amount/date columns are the typed fields. -/
structure Frame where
  userColName : Option String
  rows : List Row
deriving DecidableEq, Inhabited

/-- `user_id_column is not None and user_id_column in result.columns`
(features.py lines 64 and 119). -/
def useUserGrouping (f : Frame) (uidCol : Option String) : Bool :=
  match uidCol with
  | none => false
  | some c => decide (f.userColName = some c)

/-- The grouping tuple: `[user_id, 'simple_desc']` when grouping by user,
`['simple_desc']` otherwise (features.py lines 119-122). -/
abbrev GroupKey := Option String × List Char

def keyOf (useUser : Bool) (r : RowData) : GroupKey :=
  (if useUser then some r.user else none, normalizeDesc r.description)

/-! ## numpy statistics (exact-rational model)

`np.mean` and population standard deviation `np.std` (ddof=0).  The standard
deviation itself is irrational; the code only ever compares `std/mean` and
`std` against thresholds, so the embedding provides those comparisons
directly, encoded by sign analysis and squaring. -/

def npMean (l : List Q) : Q := (Q.listSum l).divInt l.length

/-- The square of `np.std l` (population variance). -/
def npVar (l : List Q) : Q :=
  (Q.listSum (l.map (fun x => Q.mul (Q.sub x (npMean l)) (Q.sub x (npMean l))))).divInt l.length

/-- The comparison `np.std(l) / np.mean(l) <= c` (features.py line 153 and
164).  For a positive mean `std <= c*mean` iff `c*mean` is nonnegative and
`var <= (c*mean)^2`; for a negative mean the inequality flips to
`std >= c*mean`, which holds iff `c*mean <= 0` or `(c*mean)^2 <= var`.
A zero mean yields `inf` (positive std) or `nan` (zero std) in numpy, and
both compare false under `<=` against a finite threshold. -/
def stdOverMeanLE (l : List Q) (c : Q) : Bool :=
  if Q.blt (Q.ofInt 0) (npMean l) then
    Q.ble (Q.ofInt 0) (Q.mul c (npMean l)) &&
      Q.ble (npVar l) (Q.mul (Q.mul c (npMean l)) (Q.mul c (npMean l)))
  else if Q.blt (npMean l) (Q.ofInt 0) then
    Q.ble (Q.mul c (npMean l)) (Q.ofInt 0) ||
      Q.ble (Q.mul (Q.mul c (npMean l)) (Q.mul c (npMean l))) (npVar l)
  else false

/-- The comparison `np.std(l) <= c` (features.py line 159 and 164):
`std <= c` iff `c` is nonnegative and `var <= c^2`. -/
def stdLE (l : List Q) (c : Q) : Bool :=
  Q.ble (Q.ofInt 0) c && Q.ble (npVar l) (Q.mul c c)

/-! ## Recurring-purchase detector (features.py lines 82-171) -/

/-- The rows of one group, with their positional labels in the merged frame
(the merge at line 131 resets the index to `0..n-1` in input order, so a
row's label is its input position): the filter
`(result[group_cols] == pd.Series(filter_cols)).all(axis=1)` at line 147. -/
def groupMemberPairs (u : Bool) (cores : List RowData) (k : GroupKey) :
    List (Nat × RowData) :=
  cores.enum.filter (fun p => decide (keyOf u p.2 = k))

/-- `dates[i]`: integer-label lookup on the group's date series.  The series
carries the member rows' frame labels (sorting a series permutes values but
keeps labels, so the `sort_values` at line 156 does not affect lookups);
a label that is not a member position raises `KeyError`. -/
def lookupDate (pairs : List (Nat × RowData)) (i : Nat) : Except Unit ℤ :=
  match pairs.find? (fun p => decide (p.1 = i)) with
  | some p => .ok p.2.date
  | none => .error ()

/-- `[(dates[i] - dates[i-1]).days for i in range(1, len(dates))]`
(features.py line 158).  `Timedelta.days` floors toward negative infinity.
The two lookups of one step are sequenced as in the source (`dates[i]`
first); with a unit error value the order is observationally irrelevant. -/
def groupDaysBetween (pairs : List (Nat × RowData)) : Except Unit (List ℤ) :=
  (List.range (pairs.length - 1)).mapM (fun j => do
    let b ← lookupDate pairs (j + 1)
    let a ← lookupDate pairs j
    pure (Int.fdiv (b - a) 86400))

/-- Insert one labelled row into a date-sorted list of labelled rows. -/
def insertByDate (x : Nat × RowData) : List (Nat × RowData) → List (Nat × RowData)
  | [] => [x]
  | y :: ys => if x.2.date < y.2.date then x :: y :: ys else y :: insertByDate x ys

/-- Sort a group's labelled rows by date ascending (the `sort_values` at
features.py line 149).  Which order equal dates take is observationally
irrelevant here: the sorted list only feeds the order-insensitive exact
aggregations below. -/
def sortPairsByDate : List (Nat × RowData) → List (Nat × RowData)
  | [] => []
  | x :: xs => insertByDate x (sortPairsByDate xs)

/-- One iteration of the detection loop (features.py lines 141-164): decide
whether the group passes both variance tests.  The `sort_values` at line 149
only fixes the order in which the member amounts reach `np.std`/`np.mean`
(order-insensitive in exact arithmetic); the date lookups are label-based
and unaffected by order. -/
def groupDecision (u : Bool) (cores : List RowData) (maxAV maxDV : Q)
    (k : GroupKey) : Except Unit Bool :=
  let pairs := groupMemberPairs u cores k
  let sorted := sortPairsByDate pairs
  let amounts := sorted.map (fun p => p.2.amount)
  let amountOK :=
    if amounts.length > 1 then stdOverMeanLE amounts maxAV
    else Q.ble (Q.ofInt 0) maxAV
  do
    let days ← if pairs.length > 1 then groupDaysBetween pairs else pure []
    let daysOK :=
      if days.length > 1 then stdLE (days.map (fun d => Q.ofInt d)) maxDV
      else Q.ble (Q.ofInt 0) maxDV
    pure (amountOK && daysOK)

/-- The surviving group keys: those whose occurrence count is at least
`min_occurrences` (features.py lines 125-128).  `groupby` iterates keys in
sorted order; the per-group flag updates are disjoint and the single error
outcome is order-independent, so first-occurrence order is used here. -/
def surviving (u : Bool) (cores : List RowData) (minOcc : Nat) : List GroupKey :=
  let keys := cores.map (keyOf u)
  keys.eraseDups.filter
    (fun k => decide (keys.countP (fun k2 => decide (k2 = k)) ≥ minOcc))

/-- The detection loop over surviving groups, collecting the keys whose
groups pass both tests; the first `KeyError` aborts the whole call. -/
def exceptFilter (p : GroupKey → Except Unit Bool) :
    List GroupKey → Except Unit (List GroupKey)
  | [] => .ok []
  | k :: ks => do
    let b ← p k
    let rest ← exceptFilter p ks
    if b then pure (k :: rest) else pure rest

/-- The keys of the groups whose members are flagged recurring.  Everything
the loop reads is a function of the grouping switch and the rows'
user/description/amount/date fields. -/
def passingKeysCore (u : Bool) (cores : List RowData) (minOcc : Nat)
    (maxAV maxDV : Q) : Except Unit (List GroupKey) :=
  exceptFilter (groupDecision u cores maxAV maxDV) (surviving u cores minOcc)

/-- The detector with the grouping switch already evaluated.  The output
frame keeps the input rows in order (the merge at line 131 preserves left
order) and overwrites `is_recurring`: a row is flagged iff its group key is
in the passing set (lines 138 and 163-166). -/
def identifyWith (f : Frame) (u : Bool) (minOcc : Nat) (maxAV maxDV : Q) :
    Except Unit Frame := do
  let pass ← passingKeysCore u (f.rows.map Row.core) minOcc maxAV maxDV
  pure { userColName := f.userColName
         rows := f.rows.map (fun r =>
           { r with is_recurring := decide (keyOf u r.core ∈ pass) }) }

/-- `identify_recurring_purchases(df, ..., user_id_column, min_occurrences,
max_amount_variance, max_days_variance)` (features.py lines 82-171). -/
def identify_recurring_purchases (f : Frame) (uidCol : Option String)
    (minOcc : Nat) (maxAV maxDV : Q) : Except Unit Frame :=
  identifyWith f (useUserGrouping f uidCol) minOcc maxAV maxDV

/-! ## numpy argsort, `kind='quicksort'`

`DataFrame.sort_values(by=col)` with the default `kind='quicksort'` argsorts
the key column with numpy's introsort (`aquicksort_` in
`npysort/quicksort.c.src`): median-of-3 quicksort with an explicit segment
stack, switching to insertion sort on segments of at most 16 elements
(`SMALL_QUICKSORT = 15` compares `pr - pl > 15`) and to heapsort
(`aheapsort_`) when the depth budget `2 * msb(n)` is exhausted.  The
embedding mirrors that C code: `t` is the `tosort` index array, segment
bounds are integers (a right bound may move below a left bound), and the
do-while scans and loops take explicit fuel large enough for every actual
run. -/

namespace Npy

/-- `t[i]` for a (nonnegative, in-range in every reachable state) bound. -/
def tGet (t : List Nat) (i : ℤ) : Nat := t.getD i.toNat 0

/-- `v[t[i]]`. -/
def vOf (v : List ℤ) (t : List Nat) (i : ℤ) : ℤ := v.getD (tGet t i) 0

/-- `INTP_SWAP(*pi, *pj)` on the index array. -/
def tSwap (t : List Nat) (i j : ℤ) : List Nat :=
  (t.set i.toNat (tGet t j)).set j.toNat (tGet t i)

/-- `do ++pi; while (p(pi));` starting from `i`. -/
def doIncWhile (p : ℤ → Bool) : Nat → ℤ → ℤ
  | 0, i => i + 1
  | fuel + 1, i => let j := i + 1; if p j then doIncWhile p fuel j else j

/-- `do --pj; while (p(pj));` starting from `i`. -/
def doDecWhile (p : ℤ → Bool) : Nat → ℤ → ℤ
  | 0, i => i - 1
  | fuel + 1, i => let j := i - 1; if p j then doDecWhile p fuel j else j

/-- The partition exchange loop: advance `pi` over elements below the pivot,
retreat `pj` over elements above it, stop when the cursors meet, otherwise
swap and continue.  Returns the array and the final `pi`. -/
def partLoop (v : List ℤ) (vp : ℤ) :
    Nat → List Nat → ℤ → ℤ → List Nat × ℤ
  | 0, t, pi, _ => (t, pi)
  | fuel + 1, t, pi, pj =>
    let pi2 := doIncWhile (fun x => decide (vOf v t x < vp)) (v.length + 2) pi
    let pj2 := doDecWhile (fun x => decide (vp < vOf v t x)) (v.length + 2) pj
    if pi2 ≥ pj2 then (t, pi2)
    else partLoop v vp fuel (tSwap t pi2 pj2) pi2 pj2

/-- The insertion-sort branch, element step: the C loop shifts the already
sorted prefix right while the new element's key is below the shifted one and
drops the element in the gap.  With the prefix kept reversed (head =
rightmost) that is: walk past strictly greater keys, then cons. -/
def cInsert (v : List ℤ) (i : Nat) : List Nat → List Nat
  | [] => [i]
  | k :: ks =>
    if v.getD i 0 < v.getD k 0 then k :: cInsert v i ks else i :: k :: ks

/-- Insertion argsort of one segment (the `pr - pl <= 15` branch): fold the
segment through `cInsert` over a reversed prefix, then reverse. -/
def insArgSeg (v : List ℤ) (seg : List Nat) : List Nat :=
  (seg.foldl (fun acc i => cInsert v i acc) []).reverse

/-- Run an in-place segment sort functionally: extract `t[pl..pr]`, sort it,
splice it back. -/
def spliceSeg (t : List Nat) (pl pr : ℤ) (f : List Nat → List Nat) : List Nat :=
  let seg := (t.drop pl.toNat).take (pr + 1 - pl).toNat
  t.take pl.toNat ++ f seg ++ t.drop (pr + 1).toNat

/-- `a[x]` of the one-based heapsort view of a segment. -/
def hGet (a : List Nat) (x : Nat) : Nat := a.getD (x - 1) 0

/-- `a[x] = val` of the one-based heapsort view. -/
def hSet (a : List Nat) (x : Nat) (val : Nat) : List Nat := a.set (x - 1) val

/-- The sift-down loop shared by both heapsort phases of `aheapsort_`:
descend from `i` with child cursor `j`, pulling up the larger child while it
beats `tmp`, then store `tmp`. -/
def hsSift (v : List ℤ) : Nat → List Nat → Nat → Nat → Nat → Nat → List Nat
  | 0, a, tmp, i, _, _ => hSet a i tmp
  | fuel + 1, a, tmp, i, j, n =>
    if j ≤ n then
      let j2 := if j < n && decide (v.getD (hGet a j) 0 < v.getD (hGet a (j + 1)) 0)
                then j + 1 else j
      if v.getD tmp 0 < v.getD (hGet a j2) 0 then
        hsSift v fuel (hSet a i (hGet a j2)) tmp j2 (2 * j2) n
      else hSet a i tmp
    else hSet a i tmp

/-- Heapify phase: `for (l = n >> 1; l > 0; --l)` sift `a[l]` down. -/
def hsPhase1 (v : List ℤ) : Nat → List Nat → Nat → Nat → List Nat
  | 0, a, _, _ => a
  | fuel + 1, a, l, n =>
    if l = 0 then a
    else hsPhase1 v fuel (hsSift v (n + 2) a (hGet a l) l (2 * l) n) (l - 1) n

/-- Extraction phase: `for (; n > 1;)` move the root to the end and sift the
displaced element down the shrunk heap. -/
def hsPhase2 (v : List ℤ) : Nat → List Nat → Nat → List Nat
  | 0, a, _ => a
  | fuel + 1, a, n =>
    if n > 1 then
      let tmp := hGet a n
      let a2 := hSet a n (hGet a 1)
      hsPhase2 v fuel (hsSift v (n + 2) a2 tmp 1 2 (n - 1)) (n - 1)
    else a

/-- `aheapsort_` on one segment of the index array. -/
def heapArgSeg (v : List ℤ) (seg : List Nat) : List Nat :=
  let n := seg.length
  hsPhase2 v (n + 2) (hsPhase1 v (n + 2) seg (n / 2) n) n

/-- The main introsort loop of `aquicksort_`: partition large segments
(median of 3, pivot parked at `pr-1`, larger side pushed on the stack),
insertion-sort small ones, heapsort when the depth budget runs out, pop the
stack until empty. -/
def qsLoop (v : List ℤ) :
    Nat → List Nat → List (ℤ × ℤ) → ℤ → ℤ → ℤ → List Nat
  | 0, t, _, _, _, _ => t
  | fuel + 1, t, stack, pl, pr, depth =>
    if pr - pl > 15 then
      if depth < 0 then
        let t2 := spliceSeg t pl pr (heapArgSeg v)
        match stack with
        | [] => t2
        | (l, r) :: rest => qsLoop v fuel t2 rest l r (depth - 1)
      else
        let pm := pl + (pr - pl) / 2
        let t1 := if vOf v t pm < vOf v t pl then tSwap t pm pl else t
        let t2 := if vOf v t1 pr < vOf v t1 pm then tSwap t1 pr pm else t1
        let t3 := if vOf v t2 pm < vOf v t2 pl then tSwap t2 pm pl else t2
        let vp := vOf v t3 pm
        let t4 := tSwap t3 pm (pr - 1)
        let step := partLoop v vp (v.length + 2) t4 pl (pr - 1)
        let t6 := tSwap step.1 step.2 (pr - 1)
        if step.2 - pl < pr - step.2 then
          qsLoop v fuel t6 ((step.2 + 1, pr) :: stack) pl (step.2 - 1) (depth - 1)
        else
          qsLoop v fuel t6 ((pl, step.2 - 1) :: stack) (step.2 + 1) pr (depth - 1)
    else
      let t2 := spliceSeg t pl pr (insArgSeg v)
      match stack with
      | [] => t2
      | (l, r) :: rest => qsLoop v fuel t2 rest l r depth

/-- `np.argsort(v, kind='quicksort')`: run the introsort loop on the
identity index array.  An introsort performs at most `n - 1` partitions and
insertion- or heap-sorts at most `n + 1` leaf segments, so `2n + 16` loop
iterations of fuel are never exhausted. -/
def argsortQuick (v : List ℤ) : List Nat :=
  let n := v.length
  qsLoop v (2 * n + 16) (List.range n) [] 0 ((n : ℤ) - 1)
    (2 * (Nat.log2 n : ℤ))

end Npy

/-! ## Frequency calculator (features.py lines 42-79) -/

/-- The row order produced by `result.sort_values(by=date_column)` at
line 62: the numpy argsort of the date column. -/
def sortPerm (f : Frame) : List Nat :=
  Npy.argsortQuick (f.rows.map (fun r => r.date))

/-- `result.groupby(user_id_column)[date_column].shift(1)` respectively
`result[date_column].shift(1)` on the sorted frame (lines 64-69): for each
position, the date of the nearest earlier row (sharing the user when
grouping). -/
def prevDates (u : Bool) (sorted : List Row) : List (Option ℤ) :=
  if u then
    sorted.enum.map (fun p =>
      ((sorted.take p.1).reverse.find? (fun r2 => decide (r2.user = p.2.user))).map
        (fun r2 => r2.date))
  else
    sorted.enum.map (fun p => ((sorted.take p.1).reverse.head?).map (fun r2 => r2.date))

/-- The calculator with the grouping switch already evaluated: sort, shift,
`(date - prev).total_seconds() / (24 * 3600)`, `fillna(-1)` (lines 58-79).
Each output pair is a row together with its `days_since_last_purchase`. -/
def calcFreqWith (f : Frame) (u : Bool) : List (Row × Q) :=
  let sorted := (sortPerm f).map (fun i => f.rows.getD i default)
  List.zipWith
    (fun r pd =>
      (r, match pd with
          | none => Q.ofInt (-1)
          | some d => Q.frac (r.date - d) (24 * 3600)))
    sorted (prevDates u sorted)

/-- `calculate_purchase_frequency(df, user_id_column, date_column)`
(features.py lines 42-79). -/
def calculate_purchase_frequency (f : Frame) (uidCol : Option String) :
    List (Row × Q) :=
  calcFreqWith f (useUserGrouping f uidCol)

/-! ## Keyword categorizer (features.py lines 174-206) -/

/-- Split a pattern at the regex alternation bars. -/
def splitBar : List Char → List (List Char)
  | [] => [[]]
  | c :: cs =>
    if c = '|' then [] :: splitBar cs
    else
      match splitBar cs with
      | [] => [[c]]
      | a :: as => (c :: a) :: as

/-- `'|'.join(keywords)`. -/
def joinBar : List (List Char) → List Char
  | [] => []
  | [k] => k
  | k :: ks => k ++ '|' :: joinBar ks

/-- Substring occurrence test on character lists. -/
def hasSub (s sub : List Char) : Bool :=
  (List.range (s.length + 1)).any (fun d => sub.isPrefixOf (s.drop d))

/-- `text_lower.str.contains(pattern, na=False)` for the patterns this
module builds: a `'|'`-join of keywords is a regex alternation whose
alternatives are the bar-separated literals, and the search succeeds iff
some alternative occurs as a substring (an empty pattern or alternative
matches every string).  Keywords are literal in all claims; other regex
metacharacters are out of the modelled fragment.  Texts are non-null
(`na=False` only affects nulls). -/
def strContainsPattern (pat : List Char) (s : List Char) : Bool :=
  (splitBar pat).any (fun alt => hasSub s alt)

/-- `categorize_text(df, text_column, keywords_dict)` (features.py lines
174-206), modelled on the text column: lowercase every text once, start all
rows at `'Uncategorized'`, then for each mapping entry in order overwrite
the category of every row whose lowered text matches the joined keyword
pattern.  Returns the derived category of each row. -/
def categorize_text (texts : List String) (kws : List (String × List String)) :
    List String :=
  let lower := texts.map (fun t => t.toList.map Char.toLower)
  kws.foldl
    (fun derived entry =>
      let pat := joinBar (entry.2.map String.toList)
      List.zipWith
        (fun tl d => if strContainsPattern pat tl then entry.1 else d)
        lower derived)
    (texts.map (fun _ => "Uncategorized"))

/-! ## Concrete inputs used by the claim theorems and witnesses -/

/-- Scenario A of the spec: three Netflix charges of 15.99 at days 1, 31 and
61 for one user (timestamps in seconds; `1599/100 = 15.99`). -/
def frameNetflix : Frame :=
  ⟨some "user_id",
   [⟨"u1", "NETFLIX 123", Q.frac 1599 100, 1 * 86400, false⟩,
    ⟨"u1", "Netflix", Q.frac 1599 100, 31 * 86400, false⟩,
    ⟨"u1", "netflix!", Q.frac 1599 100, 61 * 86400, false⟩]⟩

/-- A well-formed input on which the detector crashes: one non-recurring
record followed by three monthly identical charges.  The surviving group
occupies frame positions 1-3, so the label lookup `dates[0]` inside the
day-gap comprehension raises `KeyError`. -/
def frameCrash : Frame :=
  ⟨some "user_id",
   [⟨"u1", "zz", Q.ofInt 1, 0, false⟩,
    ⟨"u1", "aa", Q.ofInt 10, 1 * 86400, false⟩,
    ⟨"u1", "aa", Q.ofInt 10, 31 * 86400, false⟩,
    ⟨"u1", "aa", Q.ofInt 10, 61 * 86400, false⟩]⟩

/-- A single purchase record. -/
def frameSingle : Frame := ⟨some "user_id", [⟨"u1", "spotify", Q.ofInt 10, 0, false⟩]⟩

/-- Three identical zero-amount charges at perfect 30-day intervals. -/
def frameZero : Frame :=
  ⟨some "user_id",
   [⟨"u1", "aa", Q.ofInt 0, 1 * 86400, false⟩,
    ⟨"u1", "aa", Q.ofInt 0, 31 * 86400, false⟩,
    ⟨"u1", "aa", Q.ofInt 0, 61 * 86400, false⟩]⟩

/-- Seventeen records with identical timestamps; the amount field records
each row's input position.  Seventeen is the smallest size at which numpy's
argsort leaves its insertion-sort regime. -/
def frameTies : Frame :=
  ⟨none, (List.range 17).map (fun a => ⟨"u", "d", Q.ofInt a, 0, false⟩)⟩

/-- Two records with equal timestamps, for the small-input stability
witness. -/
def framePair : Frame :=
  ⟨none, [⟨"u", "a", Q.ofInt 1, 0, false⟩, ⟨"u", "b", Q.ofInt 2, 0, false⟩]⟩

/-- A frame whose user column is named `owner`, for the missing-column
fallback witness. -/
def frameOwner : Frame := ⟨some "owner", [⟨"u1", "coffee", Q.ofInt 3, 0, false⟩]⟩

/-- The detector's output on `frameNetflix`: every record flagged. -/
def frameNetflixOut : Frame :=
  ⟨some "user_id",
   [⟨"u1", "NETFLIX 123", Q.frac 1599 100, 1 * 86400, true⟩,
    ⟨"u1", "Netflix", Q.frac 1599 100, 31 * 86400, true⟩,
    ⟨"u1", "netflix!", Q.frac 1599 100, 61 * 86400, true⟩]⟩

/-- The detector's output on `frameZero`: no record flagged. -/
def frameZeroOut : Frame :=
  ⟨some "user_id",
   [⟨"u1", "aa", Q.ofInt 0, 1 * 86400, false⟩,
    ⟨"u1", "aa", Q.ofInt 0, 31 * 86400, false⟩,
    ⟨"u1", "aa", Q.ofInt 0, 61 * 86400, false⟩]⟩

/-! ## Claim theorems -/

/-- C1: the claim states that on every input with the required columns and
`min_occurrences >= 2` the detector completes and returns the augmented
record set.  The code contradicts it: the day-gap comprehension looks dates
up by integer *label* (`dates[i]` on a filtered series), so any surviving
multi-member group whose rows are not exactly the first rows of the frame
hits a missing label and raises `KeyError`.  `frameCrash` is such an input:
a well-formed frame of four records whose surviving group sits at positions
1-3, with the documented default configuration; the call aborts instead of
returning. -/
theorem identify_keyerror_on_valid_input :
    identify_recurring_purchases frameCrash (some "user_id") 3 (Q.frac 1 10)
      (Q.ofInt 5) = .error () := by decide

/-- C2: Scenario A.  The three descriptions `"NETFLIX 123"`, `"Netflix"`,
`"netflix!"` normalize to the same key `netflix`; with equal amounts
`15.99` the coefficient of variation is `0`, the day gaps are `[30, 30]`
with standard deviation `0`, both below the thresholds, so all three
records come back flagged `is_recurring = true`. -/
theorem scenarioA_all_marked_recurring :
    identify_recurring_purchases frameNetflix (some "user_id") 3 (Q.frac 1 10)
      (Q.ofInt 5) =
    .ok ⟨some "user_id",
      [⟨"u1", "NETFLIX 123", Q.frac 1599 100, 1 * 86400, true⟩,
       ⟨"u1", "Netflix", Q.frac 1599 100, 31 * 86400, true⟩,
       ⟨"u1", "netflix!", Q.frac 1599 100, 61 * 86400, true⟩]⟩ := by decide

/-- C3, counterexample: the claim states that `min_occurrences < 2` makes
the call fail with `InvalidInput` before any computation and that it never
returns a result.  The code has no such validation: with
`min_occurrences = 1` on a one-record frame the call returns normally —
and even flags the singleton group as recurring, since a singleton takes
the `0`-variance fallback branches of both tests. -/
theorem min_occurrences_one_returns_result :
    identify_recurring_purchases frameSingle (some "user_id") 1 (Q.frac 1 10)
      (Q.ofInt 5) =
    .ok ⟨some "user_id", [⟨"u1", "spotify", Q.ofInt 10, 0, true⟩]⟩ := by decide

/-- C3, amended: `identify_recurring_purchases` performs no validation of
`min_occurrences` at all — no `InvalidInput` is raised for
`min_occurrences < 2`; the call proceeds with computation.  On any
single-record input (any record, any grouping, any nonnegative thresholds)
it returns normally, with the record's singleton group flagged recurring
through the `0`-variance fallback branches of both tests. -/
theorem no_min_occurrences_validation (r : Row) (cn uid : Option String)
    (minOcc : Nat) (maxAV maxDV : Q) (hmin : minOcc < 2)
    (hAV : Q.ble (Q.ofInt 0) maxAV = true)
    (hDV : Q.ble (Q.ofInt 0) maxDV = true) :
    identify_recurring_purchases ⟨cn, [r]⟩ uid minOcc maxAV maxDV =
      .ok ⟨cn, [{ r with is_recurring := true }]⟩ := by
  have h1 : minOcc ≤ 1 := by omega
  unfold identify_recurring_purchases identifyWith passingKeysCore
  generalize huu : useUserGrouping ⟨cn, [r]⟩ uid = u
  have hsurv : surviving u ([r].map Row.core) minOcc = [keyOf u r.core] := by
    unfold surviving
    simp [List.countP_cons, h1, List.eraseDups, List.eraseDups.loop]
  rw [hsurv]
  have hdec : groupDecision u ([r].map Row.core) maxAV maxDV (keyOf u r.core) =
      .ok true := by
    unfold groupDecision groupMemberPairs
    simp [List.enum, List.enumFrom, sortPairsByDate, insertByDate, hAV, hDV]
    rfl
  unfold exceptFilter
  rw [hdec]
  simp [Bind.bind, Except.bind, exceptFilter, pure, Except.pure]

/-- C3, amended claim witness: the single-spotify frame with
`min_occurrences = 1` and the default thresholds. -/
theorem no_min_occurrences_validation_witness :
    identify_recurring_purchases
        ⟨some "user_id", [⟨"u1", "spotify", Q.ofInt 10, 0, false⟩]⟩
        (some "user_id") 1 (Q.frac 1 10) (Q.ofInt 5) =
      .ok ⟨some "user_id", [⟨"u1", "spotify", Q.ofInt 10, 0, true⟩]⟩ :=
  no_min_occurrences_validation ⟨"u1", "spotify", Q.ofInt 10, 0, false⟩
    (some "user_id") (some "user_id") 1 (Q.frac 1 10) (Q.ofInt 5) (by omega)
    (by decide) (by decide)

/-- C5, counterexample: the claim states matching ignores letter case in
the text and in the keyword.  The code lowercases only the text: the text
`"pizza"` contains the keyword `"PIZZA"` when case is ignored (their
lowercasings are equal, first conjunct), the keyword's category is the only
entry of the mapping, yet the record stays `"Uncategorized"`. -/
theorem uppercase_keyword_never_matches :
    hasSub ("pizza".toList.map Char.toLower) ("PIZZA".toList.map Char.toLower) = true ∧
    categorize_text ["pizza"] [("Food", ["PIZZA"])] = ["Uncategorized"] := by decide

/-- C4, counterexample: the claim states the sort is stable for every
input.  On seventeen records with identical timestamps (each row's amount
recording its input position), numpy's quicksort leaves the insertion-sort
regime and its first partition scrambles the ties: the output row order is
the permutation shown, in which record 2 (output position 13) precedes
record 1 (output position 14) although both carry equal timestamps and
record 1 came first. -/
theorem unstable_sort_reorders_equal_timestamps :
    (frameTies.rows.getD 1 default).date = (frameTies.rows.getD 2 default).date ∧
    sortPerm frameTies = [0, 14, 13, 12, 11, 10, 9, 15, 8, 6, 5, 4, 3, 2, 1, 7, 16] ∧
    (calculate_purchase_frequency frameTies none).map (fun p => p.1.amount) =
      ([0, 14, 13, 12, 11, 10, 9, 15, 8, 6, 5, 4, 3, 2, 1, 7, 16] : List Nat).map
        (fun a => Q.ofInt a) := by decide

/-- C9: if the grouping-key argument names a column the frame does not
have, both `calculate_purchase_frequency` and `identify_recurring_purchases`
silently fall back to the global computation: the guard
`user_id_column is not None and user_id_column in result.columns` fails
exactly as for `user_id_column = None`, and no error is raised. -/
theorem missing_user_column_falls_back_global (f : Frame) (c : String)
    (minOcc : Nat) (maxAV maxDV : Q) (hc : f.userColName ≠ some c) :
    identify_recurring_purchases f (some c) minOcc maxAV maxDV =
      identify_recurring_purchases f none minOcc maxAV maxDV ∧
    calculate_purchase_frequency f (some c) =
      calculate_purchase_frequency f none := by
  have hd : (decide (f.userColName = some c)) = false := decide_eq_false hc
  constructor
  · simp [identify_recurring_purchases, useUserGrouping, hd]
  · simp [calculate_purchase_frequency, useUserGrouping, hd]

/-- Helper: a successful detector run determines the passing key set and
the shape of the output frame (rows in input order, flag = membership of
the row's key in the passing set). -/
theorem identifyWith_ok_inv {f : Frame} {u : Bool} {minOcc : Nat}
    {maxAV maxDV : Q} {out : Frame}
    (h : identifyWith f u minOcc maxAV maxDV = .ok out) :
    ∃ pass,
      passingKeysCore u (f.rows.map Row.core) minOcc maxAV maxDV = .ok pass ∧
      out = ⟨f.userColName,
        f.rows.map (fun r =>
          { r with is_recurring := decide (keyOf u r.core ∈ pass) })⟩ := by
  unfold identifyWith at h
  cases hp : passingKeysCore u (f.rows.map Row.core) minOcc maxAV maxDV with
  | error e => rw [hp] at h; simp [Bind.bind, Except.bind] at h
  | ok pass =>
    rw [hp] at h
    simp only [Bind.bind, Except.bind, pure, Except.pure, Except.ok.injEq] at h
    exact ⟨pass, rfl, h.symm⟩

/-- C6: after a successful detection pass the recurring flag is constant on
each group identified by (grouping key, normalized description): rows whose
grouping tuples coincide receive the same `is_recurring` value, because a
row's flag is exactly the membership of its tuple in the passing key set —
no group is split. -/
theorem group_flag_all_or_nothing (f : Frame) (uid : Option String)
    (minOcc : Nat) (maxAV maxDV : Q) (out : Frame) (i j : Nat)
    (h : identify_recurring_purchases f uid minOcc maxAV maxDV = .ok out)
    (hi : i < f.rows.length) (hj : j < f.rows.length)
    (hk : keyOf (useUserGrouping f uid) ((f.rows.getD i default).core) =
          keyOf (useUserGrouping f uid) ((f.rows.getD j default).core)) :
    (out.rows.getD i default).is_recurring =
      (out.rows.getD j default).is_recurring := by
  unfold identify_recurring_purchases at h
  obtain ⟨pass, hp, hout⟩ := identifyWith_ok_inv h
  subst hout
  rw [List.getD_eq_getElem _ _ hi] at hk
  rw [List.getD_eq_getElem _ _ hj] at hk
  rw [List.getD_eq_getElem _ _ (by simpa using hi),
      List.getD_eq_getElem _ _ (by simpa using hj)]
  simp only [List.getElem_map]
  rw [hk]

/-- Helper: running the detector on its own successful output reproduces
that output: the output rows differ from the input rows only in
`is_recurring`, which the detector neither reads nor varies on. -/
theorem identifyWith_idem {f : Frame} {u : Bool} {minOcc : Nat}
    {maxAV maxDV : Q} {out : Frame}
    (h : identifyWith f u minOcc maxAV maxDV = .ok out) :
    identifyWith out u minOcc maxAV maxDV = .ok out := by
  obtain ⟨pass, hp, hout⟩ := identifyWith_ok_inv h
  subst hout
  unfold identifyWith
  have hcores : (f.rows.map (fun r =>
      { r with is_recurring := decide (keyOf u r.core ∈ pass) })).map Row.core =
      f.rows.map Row.core := by
    rw [List.map_map]; rfl
  rw [hcores, hp]
  simp only [Bind.bind, Except.bind, pure, Except.pure, Except.ok.injEq,
    List.map_map]
  rfl

/-- C7: the detector is deterministic (it is a pure function of its input
and configuration, so two runs on the same input agree definitionally) and
idempotent: applied to its own successful output with the same
configuration it returns that output unchanged — in particular the same
`is_recurring` assignment per record. -/
theorem identify_idempotent (f : Frame) (uid : Option String) (minOcc : Nat)
    (maxAV maxDV : Q) (out : Frame)
    (h : identify_recurring_purchases f uid minOcc maxAV maxDV = .ok out) :
    identify_recurring_purchases out uid minOcc maxAV maxDV = .ok out := by
  unfold identify_recurring_purchases at h ⊢
  have hcol : out.userColName = f.userColName := by
    obtain ⟨pass, hp, hout⟩ := identifyWith_ok_inv h
    rw [hout]
  have hu : useUserGrouping out uid = useUserGrouping f uid := by
    unfold useUserGrouping
    cases uid with
    | none => rfl
    | some c => rw [hcol]
  rw [hu]
  exact identifyWith_idem h

/-- C6, witness: on Scenario A's successful run, records 0 and 1 share a
group and indeed share a flag. -/
theorem group_flag_all_or_nothing_witness :
    (frameNetflixOut.rows.getD 0 default).is_recurring =
      (frameNetflixOut.rows.getD 1 default).is_recurring :=
  group_flag_all_or_nothing frameNetflix (some "user_id") 3 (Q.frac 1 10)
    (Q.ofInt 5) frameNetflixOut 0 1 (by decide) (by decide) (by decide)
    (by decide)

/-- C7, witness: re-running the detector on the zero-amount run's output
reproduces it. -/
theorem identify_idempotent_witness :
    identify_recurring_purchases frameZeroOut (some "user_id") 3 (Q.frac 1 10)
      (Q.ofInt 5) = .ok frameZeroOut :=
  identify_idempotent frameZero (some "user_id") 3 (Q.frac 1 10) (Q.ofInt 5)
    frameZeroOut (by decide)

/-- C9, witness: a frame whose user column is named `owner`, queried with
the default grouping-column name `user_id`. -/
theorem missing_user_column_falls_back_global_witness :
    identify_recurring_purchases frameOwner (some "user_id") 3 (Q.frac 1 10)
      (Q.ofInt 5) =
      identify_recurring_purchases frameOwner none 3 (Q.frac 1 10) (Q.ofInt 5) ∧
    calculate_purchase_frequency frameOwner (some "user_id") =
      calculate_purchase_frequency frameOwner none :=
  missing_user_column_falls_back_global frameOwner "user_id" 3 (Q.frac 1 10)
    (Q.ofInt 5) (by decide)


/-! ### Value semantics of the exact rational arithmetic -/

theorem Q.dcast_ne_zero (q : Q) : ((q.d : ℚ)) ≠ 0 := by
  exact_mod_cast ne_of_gt q.dpos

theorem Q.val_ofInt (z : ℤ) : (Q.ofInt z).val = (z : ℚ) := by
  simp [Q.ofInt, Q.val]

theorem Q.val_add (a b : Q) : (Q.add a b).val = a.val + b.val := by
  have ha := a.dcast_ne_zero
  have hb := b.dcast_ne_zero
  unfold Q.val Q.add
  push_cast
  field_simp
  try ring

theorem Q.val_sub (a b : Q) : (Q.sub a b).val = a.val - b.val := by
  have ha := a.dcast_ne_zero
  have hb := b.dcast_ne_zero
  unfold Q.val Q.sub
  push_cast
  field_simp
  try ring

theorem Q.val_mul (a b : Q) : (Q.mul a b).val = a.val * b.val := by
  have ha := a.dcast_ne_zero
  have hb := b.dcast_ne_zero
  unfold Q.val Q.mul
  push_cast
  field_simp

theorem Q.val_divInt_pos (a : Q) (k : ℤ) (hk : 0 < k) :
    (a.divInt k).val = a.val / (k : ℚ) := by
  have ha := a.dcast_ne_zero
  have hk2 : ((k : ℚ)) ≠ 0 := by exact_mod_cast ne_of_gt hk
  unfold Q.val Q.divInt
  rw [dif_pos hk]
  push_cast
  field_simp
  try ring

theorem Q.ble_iff (a b : Q) : Q.ble a b = true ↔ a.val ≤ b.val := by
  have ha : (0 : ℚ) < (a.d : ℚ) := by exact_mod_cast a.dpos
  have hb : (0 : ℚ) < (b.d : ℚ) := by exact_mod_cast b.dpos
  unfold Q.ble Q.val
  rw [decide_eq_true_eq, div_le_div_iff₀ ha hb]
  constructor
  · intro h; exact_mod_cast h
  · intro h; exact_mod_cast h

theorem Q.blt_iff (a b : Q) : Q.blt a b = true ↔ a.val < b.val := by
  have ha : (0 : ℚ) < (a.d : ℚ) := by exact_mod_cast a.dpos
  have hb : (0 : ℚ) < (b.d : ℚ) := by exact_mod_cast b.dpos
  unfold Q.blt Q.val
  rw [decide_eq_true_eq, div_lt_div_iff₀ ha hb]
  constructor
  · intro h; exact_mod_cast h
  · intro h; exact_mod_cast h

theorem Q.val_listSum (l : List Q) : (Q.listSum l).val = (l.map Q.val).sum := by
  induction l with
  | nil => simp [Q.listSum, Q.val_ofInt]
  | cons x xs ih =>
    simp only [Q.listSum, List.foldr_cons, List.map_cons, List.sum_cons]
    rw [Q.val_add]
    simp only [Q.listSum] at ih
    rw [ih]

theorem Q.val_eq_zero_iff (q : Q) : q.val = 0 ↔ q.n = 0 := by
  have hd := q.dcast_ne_zero
  unfold Q.val
  rw [div_eq_zero_iff]
  constructor
  · rintro (h | h)
    · exact_mod_cast h
    · exact absurd h hd
  · intro h; left; exact_mod_cast h

theorem npMean_val (l : List Q) (hl : l ≠ []) :
    (npMean l).val = (l.map Q.val).sum / (l.length : ℚ) := by
  have hlen : 0 < l.length := List.length_pos.mpr hl
  unfold npMean
  rw [Q.val_divInt_pos _ _ (by exact_mod_cast hlen), Q.val_listSum]
  push_cast
  ring

/-- A zero mean fails the amount test (the division yields `inf` or `nan`,
neither of which is `<=` a finite threshold). -/
theorem stdOverMeanLE_false_of_mean_zero (l : List Q) (c : Q)
    (h : (npMean l).val = 0) : stdOverMeanLE l c = false := by
  have hn : (npMean l).n = 0 := (Q.val_eq_zero_iff _).mp h
  unfold stdOverMeanLE
  have h1 : Q.blt (Q.ofInt 0) (npMean l) = false := by
    unfold Q.blt Q.ofInt
    simp [hn]
  have h2 : Q.blt (npMean l) (Q.ofInt 0) = false := by
    unfold Q.blt Q.ofInt
    simp [hn]
  simp [h1, h2]

/-! ### Group membership and the detection loop -/

theorem insertByDate_perm (x : Nat × RowData) (l : List (Nat × RowData)) :
    (insertByDate x l).Perm (x :: l) := by
  induction l with
  | nil => simp [insertByDate]
  | cons y ys ih =>
    unfold insertByDate
    by_cases hxy : x.2.date < y.2.date
    · rw [if_pos hxy]
    · rw [if_neg hxy]
      exact ((ih.cons y).trans (List.Perm.swap x y ys))

theorem sortPairsByDate_perm (l : List (Nat × RowData)) :
    (sortPairsByDate l).Perm l := by
  induction l with
  | nil => simp [sortPairsByDate]
  | cons x xs ih =>
    unfold sortPairsByDate
    exact (insertByDate_perm x (sortPairsByDate xs)).trans (ih.cons x)

theorem exceptFilter_ok_mem {p : GroupKey → Except Unit Bool} :
    ∀ {ks l : List GroupKey}, exceptFilter p ks = .ok l →
      ∀ {x : GroupKey}, x ∈ l → x ∈ ks ∧ p x = .ok true := by
  intro ks
  induction ks with
  | nil =>
    intro l h x hx
    unfold exceptFilter at h
    simp only [Except.ok.injEq] at h
    subst h
    cases hx
  | cons k ks ih =>
    intro l h x hx
    unfold exceptFilter at h
    cases hb : p k with
    | error e => rw [hb] at h; simp [Bind.bind, Except.bind] at h
    | ok b =>
      rw [hb] at h
      cases hr : exceptFilter p ks with
      | error e => rw [hr] at h; simp [Bind.bind, Except.bind] at h
      | ok rest =>
        rw [hr] at h
        simp only [Bind.bind, Except.bind] at h
        cases b with
        | true =>
          rw [if_pos rfl] at h
          simp only [pure, Except.pure, Except.ok.injEq] at h
          subst h
          rcases List.mem_cons.mp hx with hxk | hxr
          · subst hxk; exact ⟨List.mem_cons_self _ _, hb⟩
          · rcases ih hr hxr with ⟨h1, h2⟩
            exact ⟨List.mem_cons_of_mem _ h1, h2⟩
        | false =>
          rw [if_neg Bool.false_ne_true] at h
          simp only [pure, Except.pure, Except.ok.injEq] at h
          subst h
          rcases ih hr hx with ⟨h1, h2⟩
          exact ⟨List.mem_cons_of_mem _ h1, h2⟩

theorem mem_surviving_count {u : Bool} {cores : List RowData} {minOcc : Nat}
    {k : GroupKey} (h : k ∈ surviving u cores minOcc) :
    minOcc ≤ (cores.map (keyOf u)).countP (fun k2 => decide (k2 = k)) := by
  unfold surviving at h
  rw [List.mem_filter] at h
  simpa using h.2

theorem length_filter_enumFrom {α : Type} (pred : α → Bool) :
    ∀ (l : List α) (n : Nat),
      ((List.enumFrom n l).filter (fun p => pred p.2)).length =
        (l.filter pred).length := by
  intro l
  induction l with
  | nil => intro n; rfl
  | cons x xs ih =>
    intro n
    cases hp : pred x with
    | true => simp [List.enumFrom, List.filter, hp, ih]
    | false => simp [List.enumFrom, List.filter, hp, ih]

theorem map_snd_filter_enumFrom {α : Type} (pred : α → Bool) :
    ∀ (l : List α) (n : Nat),
      ((List.enumFrom n l).filter (fun p => pred p.2)).map Prod.snd =
        l.filter pred := by
  intro l
  induction l with
  | nil => intro n; rfl
  | cons x xs ih =>
    intro n
    cases hp : pred x with
    | true => simp [List.enumFrom, List.filter, hp, ih]
    | false => simp [List.enumFrom, List.filter, hp, ih]

theorem groupMemberPairs_length (u : Bool) (cores : List RowData) (k : GroupKey) :
    (groupMemberPairs u cores k).length =
      (cores.map (keyOf u)).countP (fun k2 => decide (k2 = k)) := by
  unfold groupMemberPairs
  rw [List.countP_map, List.countP_eq_length_filter]
  exact length_filter_enumFrom (fun c => decide (keyOf u c = k)) cores 0

theorem groupMemberPairs_snd (u : Bool) (cores : List RowData) (k : GroupKey) :
    (groupMemberPairs u cores k).map Prod.snd =
      cores.filter (fun c => decide (keyOf u c = k)) := by
  unfold groupMemberPairs
  exact map_snd_filter_enumFrom (fun c => decide (keyOf u c = k)) cores 0

/-- A group that passes the detection test with more than one member passes
in particular the amount-variance comparison. -/
theorem groupDecision_ok_true_amount {u : Bool} {cores : List RowData}
    {maxAV maxDV : Q} {k : GroupKey}
    (hlen : 1 < (groupMemberPairs u cores k).length)
    (hd : groupDecision u cores maxAV maxDV k = .ok true) :
    stdOverMeanLE
      ((sortPairsByDate (groupMemberPairs u cores k)).map (fun p => p.2.amount))
      maxAV = true := by
  unfold groupDecision at hd
  have hslen : (sortPairsByDate (groupMemberPairs u cores k)).length =
      (groupMemberPairs u cores k).length :=
    (sortPairsByDate_perm _).length_eq
  have halen : 1 < ((sortPairsByDate (groupMemberPairs u cores k)).map
      (fun p => p.2.amount)).length := by
    rw [List.length_map, hslen]; exact hlen
  rw [if_pos hlen] at hd
  cases hdays : groupDaysBetween (groupMemberPairs u cores k) with
  | error e => rw [hdays] at hd; simp [Bind.bind, Except.bind] at hd
  | ok days =>
    rw [hdays] at hd
    simp only [Bind.bind, Except.bind, pure, Except.pure, Except.ok.injEq] at hd
    rw [Bool.and_eq_true] at hd
    have hamount := hd.1
    rw [if_pos halen] at hamount
    exact hamount

/-- C8: a surviving group whose amounts have mean zero fails the amount
test (numpy produces `inf` or `nan` for the coefficient, and either
compares false against the threshold), so none of its member records is
flagged recurring, regardless of timing uniformity.  The hypothesis
`2 <= minOcc` is the configuration domain the spec documents
(`min_occurrences` is an integer at least 2); the mean-zero hypothesis is
stated as a zero sum of the member amounts (by value). -/
theorem zero_mean_group_not_recurring (f : Frame) (uid : Option String)
    (minOcc : Nat) (maxAV maxDV : Q) (out : Frame) (i : Nat)
    (h : identify_recurring_purchases f uid minOcc maxAV maxDV = .ok out)
    (hmin : 2 ≤ minOcc) (hi : i < f.rows.length)
    (hmean : ((f.rows.filter (fun r2 =>
        decide (keyOf (useUserGrouping f uid) r2.core =
          keyOf (useUserGrouping f uid) ((f.rows.getD i default).core)))).map
        (fun r2 => r2.amount.val)).sum = 0) :
    (out.rows.getD i default).is_recurring = false := by
  unfold identify_recurring_purchases at h
  obtain ⟨pass, hp, hout⟩ := identifyWith_ok_inv h
  subst hout
  rw [List.getD_eq_getElem _ _ (by simpa using hi), List.getElem_map]
  simp only [decide_eq_false_iff_not]
  intro hkpass
  rw [List.getD_eq_getElem _ _ hi] at hmean
  unfold passingKeysCore at hp
  obtain ⟨hsurv, hdec⟩ := exceptFilter_ok_mem hp hkpass
  have hcount := mem_surviving_count hsurv
  have hlen : 1 < (groupMemberPairs (useUserGrouping f uid) (f.rows.map Row.core)
      (keyOf (useUserGrouping f uid) f.rows[i].core)).length := by
    rw [groupMemberPairs_length]
    omega
  have hamount := groupDecision_ok_true_amount hlen hdec
  have hsum0 : ((groupMemberPairs (useUserGrouping f uid) (f.rows.map Row.core)
      (keyOf (useUserGrouping f uid) f.rows[i].core)).map
      (fun p => p.2.amount.val)).sum = 0 := by
    calc ((groupMemberPairs (useUserGrouping f uid) (f.rows.map Row.core)
        (keyOf (useUserGrouping f uid) f.rows[i].core)).map
        (fun p => p.2.amount.val)).sum
        = (((groupMemberPairs (useUserGrouping f uid) (f.rows.map Row.core)
            (keyOf (useUserGrouping f uid) f.rows[i].core)).map Prod.snd).map
            (fun c => c.amount.val)).sum := by
          rw [List.map_map]; rfl
      _ = (((f.rows.map Row.core).filter (fun c =>
            decide (keyOf (useUserGrouping f uid) c =
              keyOf (useUserGrouping f uid) f.rows[i].core))).map
            (fun c => c.amount.val)).sum := by
          rw [groupMemberPairs_snd]
      _ = 0 := by
          rw [List.filter_map, List.map_map]
          exact hmean
  have hne : (sortPairsByDate (groupMemberPairs (useUserGrouping f uid)
      (f.rows.map Row.core) (keyOf (useUserGrouping f uid) f.rows[i].core))).map
      (fun p => p.2.amount) ≠ [] := by
    intro h0
    have hl : 1 < ((sortPairsByDate (groupMemberPairs (useUserGrouping f uid)
        (f.rows.map Row.core)
        (keyOf (useUserGrouping f uid) f.rows[i].core))).map
        (fun p => p.2.amount)).length := by
      rw [List.length_map, (sortPairsByDate_perm _).length_eq]
      exact hlen
    rw [h0] at hl
    simp at hl
  have hsummap : (((sortPairsByDate (groupMemberPairs (useUserGrouping f uid)
      (f.rows.map Row.core) (keyOf (useUserGrouping f uid) f.rows[i].core))).map
      (fun p => p.2.amount)).map Q.val).sum = 0 := by
    rw [List.map_map]
    exact (((sortPairsByDate_perm _).map (fun p => p.2.amount.val)).sum_eq).trans
      hsum0
  have hmean0 : (npMean ((sortPairsByDate (groupMemberPairs (useUserGrouping f uid)
      (f.rows.map Row.core) (keyOf (useUserGrouping f uid) f.rows[i].core))).map
      (fun p => p.2.amount))).val = 0 := by
    rw [npMean_val _ hne, hsummap, zero_div]
  rw [stdOverMeanLE_false_of_mean_zero _ maxAV hmean0] at hamount
  exact absurd hamount Bool.false_ne_true

/-- C8, witness: the zero-amount run: three identical zero charges survive
with `min_occurrences = 3`, their mean is zero, and record 0 stays
unflagged. -/
theorem zero_mean_group_not_recurring_witness :
    (frameZeroOut.rows.getD 0 default).is_recurring = false :=
  zero_mean_group_not_recurring frameZero (some "user_id") 3 (Q.frac 1 10)
    (Q.ofInt 5) frameZeroOut 0 (by decide) (by omega) (by decide)
    (by show ([(Q.ofInt 0).val, (Q.ofInt 0).val, (Q.ofInt 0).val] : List ℚ).sum = 0
        simp [Q.val, Q.ofInt])


/-! ### Keyword categorizer lemmas -/

theorem hasSub_nil (s : List Char) : hasSub s [] = true := by
  unfold hasSub
  rw [List.any_eq_true]
  refine ⟨0, List.mem_range.mpr (Nat.succ_pos _), ?_⟩
  cases s <;> rfl

theorem strContainsPattern_nil (tl : List Char) :
    strContainsPattern [] tl = true := by
  unfold strContainsPattern splitBar
  simp [hasSub_nil]

theorem splitBar_ne_nil (cs : List Char) : splitBar cs ≠ [] := by
  cases cs with
  | nil => simp [splitBar]
  | cons c cs =>
    unfold splitBar
    by_cases hc : c = '|'
    · simp [hc]
    · cases h : splitBar cs <;> simp [hc, h]

theorem splitBar_cons (c : Char) (cs : List Char) :
    splitBar (c :: cs) =
      if c = '|' then [] :: splitBar cs
      else
        match splitBar cs with
        | [] => [[c]]
        | a :: as => (c :: a) :: as := rfl

theorem splitBar_append_bar (a b : List Char) :
    splitBar (a ++ '|' :: b) = splitBar a ++ splitBar b := by
  induction a with
  | nil => rw [List.nil_append, splitBar_cons, if_pos rfl]; rfl
  | cons c cs ih =>
    by_cases hc : c = '|'
    · subst hc
      rw [List.cons_append, splitBar_cons, if_pos rfl, ih, splitBar_cons,
        if_pos rfl]
      rfl
    · rw [List.cons_append, splitBar_cons, if_neg hc, ih, splitBar_cons,
        if_neg hc]
      cases h : splitBar cs with
      | nil => exact absurd h (splitBar_ne_nil cs)
      | cons x xs => rfl

theorem splitBar_no_bar (k : List Char) (hk : ¬ '|' ∈ k) : splitBar k = [k] := by
  induction k with
  | nil => rfl
  | cons c cs ih =>
    have hc : c ≠ '|' := fun h => hk (h ▸ List.mem_cons_self c cs)
    have hcs : ¬ '|' ∈ cs := fun h => hk (List.mem_cons_of_mem c h)
    unfold splitBar
    rw [if_neg hc, ih hcs]

theorem mem_splitBar_joinBar (kws : List (List Char)) (k : List Char)
    (hk : k ∈ kws) (hbar : ¬ '|' ∈ k) : k ∈ splitBar (joinBar kws) := by
  induction kws with
  | nil => cases hk
  | cons x xs ih =>
    cases xs with
    | nil =>
      have hx : k = x := by simpa using hk
      subst hx
      rw [show joinBar [k] = k from rfl, splitBar_no_bar k hbar]
      exact List.mem_singleton_self k
    | cons y ys =>
      rw [show joinBar (x :: y :: ys) = x ++ '|' :: joinBar (y :: ys) from rfl,
        splitBar_append_bar]
      rcases List.mem_cons.mp hk with h1 | h2
      · subst h1
        exact List.mem_append_left _
          (by rw [splitBar_no_bar k hbar]; exact List.mem_singleton_self k)
      · exact List.mem_append_right _ (ih h2)

theorem zipWith_const_of_length {α β γ : Type} (x : γ) :
    ∀ (as : List α) (bs : List β), as.length = bs.length →
      List.zipWith (fun _ _ => x) as bs = as.map (fun _ => x) := by
  intro as
  induction as with
  | nil => intro bs h; rfl
  | cons a as ih =>
    intro bs h
    cases bs with
    | nil => cases h
    | cons b bs =>
      simp only [List.zipWith_cons_cons, List.map_cons]
      rw [ih bs (by simpa using h)]

/-- Every step of the categorizer preserves the row count. -/
theorem catFold_length (lower : List (List Char)) :
    ∀ (kws : List (String × List String)) (acc : List String),
      acc.length = lower.length →
      (kws.foldl (fun derived entry =>
        List.zipWith (fun tl d =>
          if strContainsPattern (joinBar (entry.2.map String.toList)) tl
          then entry.1 else d) lower derived) acc).length = lower.length := by
  intro kws
  induction kws with
  | nil => intro acc h; exact h
  | cons e es ih =>
    intro acc h
    rw [List.foldl_cons]
    exact ih _ (by rw [List.length_zipWith, h, Nat.min_self])

/-- C10: a mapping entry whose keyword list is empty is joined into the
empty pattern, and the empty regex matches every (non-null) text, so when
such an entry is tested it assigns its category to every record,
overriding whatever the earlier entries assigned: with the empty-keyword
category last, every record's derived category is that label. -/
theorem empty_keyword_list_matches_all (texts : List String)
    (pre : List (String × List String)) (c : String) :
    categorize_text texts (pre ++ [(c, [])]) = texts.map (fun _ => c) := by
  unfold categorize_text
  rw [List.foldl_append, List.foldl_cons, List.foldl_nil]
  have hlen : (pre.foldl (fun derived entry =>
      List.zipWith (fun tl d =>
        if strContainsPattern (joinBar (entry.2.map String.toList)) tl
        then entry.1 else d) (texts.map (fun t => t.toList.map Char.toLower))
        derived) (texts.map (fun _ => "Uncategorized"))).length =
      (texts.map (fun t => t.toList.map Char.toLower)).length :=
    catFold_length _ pre _ (by simp)
  simp only [List.map_nil]
  rw [show joinBar [] = [] from rfl]
  simp only [strContainsPattern_nil, if_true]
  rw [zipWith_const_of_length c _ _ hlen.symm, List.map_map]
  rfl

/-- C5, amended: matching is case-insensitive only with respect to the
record's text.  The text is lowercased; each keyword is used verbatim in
the joined pattern.  A category therefore matches a record exactly when
the lowercased text contains one of its keywords as written (so a keyword
containing an uppercase letter can never match), and the match is assigned
unless a later mapping entry also matches.  Proved for a last-position
category: if the lowercased text contains one of its (bar-free) keywords
verbatim, the record's derived category is that label. -/
theorem keyword_matching_verbatim_on_lowered_text (texts : List String)
    (pre : List (String × List String)) (c : String) (kwlist : List String)
    (k : String) (i : Nat) (hk : k ∈ kwlist) (hbar : ¬ '|' ∈ k.toList)
    (hi : i < texts.length)
    (hsub : hasSub ((texts.getD i "").toList.map Char.toLower) k.toList = true) :
    (categorize_text texts (pre ++ [(c, kwlist)])).getD i "" = c := by
  unfold categorize_text
  rw [List.foldl_append, List.foldl_cons, List.foldl_nil]
  have hlow : i < (texts.map (fun t => t.toList.map Char.toLower)).length := by
    simpa using hi
  have hlen : (pre.foldl (fun derived entry =>
      List.zipWith (fun tl d =>
        if strContainsPattern (joinBar (entry.2.map String.toList)) tl
        then entry.1 else d) (texts.map (fun t => t.toList.map Char.toLower))
        derived) (texts.map (fun _ => "Uncategorized"))).length =
      (texts.map (fun t => t.toList.map Char.toLower)).length :=
    catFold_length _ pre _ (by simp)
  have hzlen : i < (List.zipWith (fun tl d =>
      if strContainsPattern (joinBar (kwlist.map String.toList)) tl
      then c else d) (texts.map (fun t => t.toList.map Char.toLower))
      (pre.foldl (fun derived entry =>
        List.zipWith (fun tl d =>
          if strContainsPattern (joinBar (entry.2.map String.toList)) tl
          then entry.1 else d) (texts.map (fun t => t.toList.map Char.toLower))
          derived) (texts.map (fun _ => "Uncategorized")))).length := by
    rw [List.length_zipWith, hlen, Nat.min_self]
    exact hlow
  rw [List.getD_eq_getElem _ _ hzlen, List.getElem_zipWith]
  have hcond : strContainsPattern (joinBar (kwlist.map String.toList))
      (texts.map (fun t => t.toList.map Char.toLower))[i] = true := by
    unfold strContainsPattern
    rw [List.any_eq_true]
    refine ⟨k.toList,
      mem_splitBar_joinBar _ _ (List.mem_map_of_mem _ hk) hbar, ?_⟩
    have hgl : (texts.map (fun t => t.toList.map Char.toLower))[i] =
        (texts.getD i "").toList.map Char.toLower := by
      rw [List.getElem_map, List.getD_eq_getElem _ _ hi]
    rw [hgl]
    exact hsub
  rw [hcond, if_pos rfl]

/-- C5, amended claim witness: Scenario E.  The last category
`"Fast Food"` owns the lowercase keyword `"burger"`, which the lowercased
text `"burger restaurant"` contains, so the record is categorized
`"Fast Food"` in spite of the earlier `"Food"` match. -/
theorem keyword_matching_verbatim_witness :
    (categorize_text ["Burger Restaurant"]
      ([("Food", ["restaurant"])] ++ [("Fast Food", ["restaurant", "burger"])])).getD
      0 "" = "Fast Food" :=
  keyword_matching_verbatim_on_lowered_text ["Burger Restaurant"]
    [("Food", ["restaurant"])] "Fast Food" ["restaurant", "burger"] "burger" 0
    (by decide) (by decide) (by decide) (by decide)


/-! ### Small-input behavior of the numpy argsort -/

/-- For at most 16 elements the introsort's partition loop never runs
(`pr - pl > 15` fails immediately) and the whole array is sorted by the
insertion-sort branch. -/
theorem argsortQuick_small (v : List ℤ) (h : v.length ≤ 16) :
    Npy.argsortQuick v = Npy.insArgSeg v (List.range v.length) := by
  unfold Npy.argsortQuick
  show Npy.qsLoop v (2 * v.length + 16) (List.range v.length) [] 0
      ((v.length : ℤ) - 1) (2 * (v.length.log2 : ℤ)) =
    Npy.insArgSeg v (List.range v.length)
  obtain ⟨m, hm⟩ : ∃ m, 2 * v.length + 16 = m + 1 := ⟨2 * v.length + 15, by omega⟩
  rw [hm]
  simp only [Npy.qsLoop]
  have hcond : ¬((v.length : ℤ) - 1 - 0 > 15) := by omega
  rw [if_neg hcond]
  have hsplice : ∀ (t : List Nat), t.length = v.length →
      Npy.spliceSeg t 0 ((v.length : ℤ) - 1) (Npy.insArgSeg v) =
        Npy.insArgSeg v t := by
    intro t ht
    unfold Npy.spliceSeg
    have e1 : ((v.length : ℤ) - 1 + 1 - 0) = (t.length : ℤ) := by rw [ht]; ring
    have e2 : ((v.length : ℤ) - 1 + 1) = (t.length : ℤ) := by rw [ht]; ring
    rw [e1, e2]
    simp
  rw [hsplice (List.range v.length) (List.length_range v.length)]

theorem cInsert_perm (v : List ℤ) (i : Nat) (acc : List Nat) :
    (Npy.cInsert v i acc).Perm (i :: acc) := by
  induction acc with
  | nil => simp [Npy.cInsert]
  | cons k ks ih =>
    unfold Npy.cInsert
    by_cases hv : v.getD i 0 < v.getD k 0
    · rw [if_pos hv]
      exact (ih.cons k).trans (List.Perm.swap i k ks)
    · rw [if_neg hv]

/-- Inserting a fresh greatest index into a reversed sorted prefix keeps it
sorted: the new index walks left only past strictly greater keys, so among
equal keys it lands after every earlier index. -/
theorem cInsert_pairwise (v : List ℤ) (i : Nat) (acc : List Nat)
    (hpw : acc.Pairwise (fun a b =>
      v.getD b 0 < v.getD a 0 ∨ (v.getD b 0 = v.getD a 0 ∧ b < a)))
    (hlt : ∀ a ∈ acc, a < i) :
    (Npy.cInsert v i acc).Pairwise (fun a b =>
      v.getD b 0 < v.getD a 0 ∨ (v.getD b 0 = v.getD a 0 ∧ b < a)) := by
  induction acc with
  | nil => simp [Npy.cInsert]
  | cons k ks ih =>
    rw [List.pairwise_cons] at hpw
    unfold Npy.cInsert
    by_cases hv : v.getD i 0 < v.getD k 0
    · rw [if_pos hv]
      rw [List.pairwise_cons]
      constructor
      · intro x hx
        rcases List.mem_cons.mp ((cInsert_perm v i ks).mem_iff.mp hx) with hxi | hxk
        · subst hxi
          exact Or.inl hv
        · exact hpw.1 x hxk
      · exact ih hpw.2 (fun a ha => hlt a (List.mem_cons_of_mem k ha))
    · rw [if_neg hv]
      rw [List.pairwise_cons]
      constructor
      · intro x hx
        rcases List.mem_cons.mp hx with hxk | hxks
        · subst hxk
          have hki : x < i := hlt x (List.mem_cons_self x ks)
          omega
        · have h1 := hpw.1 x hxks
          have hki : k < i := hlt k (List.mem_cons_self k ks)
          omega
      · rw [List.pairwise_cons]
        exact ⟨hpw.1, hpw.2⟩

theorem foldl_cInsert_pairwise (v : List ℤ) :
    ∀ (seg acc : List Nat), seg.Pairwise (· < ·) →
      (∀ a ∈ acc, ∀ b ∈ seg, a < b) →
      acc.Pairwise (fun a b =>
        v.getD b 0 < v.getD a 0 ∨ (v.getD b 0 = v.getD a 0 ∧ b < a)) →
      (seg.foldl (fun acc i => Npy.cInsert v i acc) acc).Pairwise (fun a b =>
        v.getD b 0 < v.getD a 0 ∨ (v.getD b 0 = v.getD a 0 ∧ b < a)) ∧
      (seg.foldl (fun acc i => Npy.cInsert v i acc) acc).Perm (seg ++ acc) := by
  intro seg
  induction seg with
  | nil => intro acc hs ha hp; exact ⟨hp, by simp⟩
  | cons i rest ih =>
    intro acc hs ha hp
    rw [List.pairwise_cons] at hs
    rw [List.foldl_cons]
    have hlt : ∀ a ∈ acc, a < i :=
      fun a hmem => ha a hmem i (List.mem_cons_self i rest)
    have hstep := cInsert_pairwise v i acc hp hlt
    have hmem2 : ∀ a ∈ Npy.cInsert v i acc, ∀ b ∈ rest, a < b := by
      intro a haa b hb
      rcases List.mem_cons.mp ((cInsert_perm v i acc).mem_iff.mp haa) with h1 | h2
      · subst h1; exact hs.1 b hb
      · exact ha a h2 b (List.mem_cons_of_mem i hb)
    obtain ⟨hp2, hperm2⟩ := ih (Npy.cInsert v i acc) hs.2 hmem2 hstep
    refine ⟨hp2, hperm2.trans ?_⟩
    exact (List.Perm.append_left rest (cInsert_perm v i acc)).trans
      List.perm_middle

/-- The insertion argsort of `0..n-1` lists the indices in ascending key
order, breaking key ties by ascending index (stability), and is a
permutation of `0..n-1`. -/
theorem insArgSeg_range (v : List ℤ) (n : Nat) :
    (Npy.insArgSeg v (List.range n)).Pairwise (fun a b =>
      v.getD a 0 < v.getD b 0 ∨ (v.getD a 0 = v.getD b 0 ∧ a < b)) ∧
    (Npy.insArgSeg v (List.range n)).Perm (List.range n) := by
  obtain ⟨hp, hperm⟩ := foldl_cInsert_pairwise v (List.range n) []
    (List.pairwise_lt_range n) (by intro a ha; cases ha) List.Pairwise.nil
  unfold Npy.insArgSeg
  constructor
  · exact List.pairwise_reverse.mpr hp
  · exact (List.reverse_perm _).trans (hperm.trans (by simp))

theorem prevDates_length (u : Bool) (sorted : List Row) :
    (prevDates u sorted).length = sorted.length := by
  cases u <;> simp [prevDates]

theorem map_fst_zipWith_pair {α β γ : Type} (g : α → β → γ) :
    ∀ (as : List α) (bs : List β), as.length = bs.length →
      (List.zipWith (fun a b => (a, g a b)) as bs).map Prod.fst = as := by
  intro as
  induction as with
  | nil => intro bs h; rfl
  | cons a as ih =>
    intro bs h
    cases bs with
    | nil => cases h
    | cons b bs =>
      simp only [List.zipWith_cons_cons, List.map_cons]
      rw [ih bs (by simpa using h)]

/-- C4, amended: `calculate_purchase_frequency` sorts by timestamp with
numpy's default quicksort, which is stable only in its insertion-sort
regime: for inputs of at most 16 records the output row order is the
argsort permutation `sortPerm`, which lists positions in ascending date
order with ties in ascending input position — records with equal
timestamps keep their relative input order.  (For larger inputs stability
fails; see the seventeen-record counterexample.) -/
theorem sort_stable_upto_sixteen (f : Frame) (uid : Option String)
    (h16 : f.rows.length ≤ 16) (i j : Nat) (hij : i < j)
    (hj : j < f.rows.length)
    (hdate : (f.rows.getD i default).date = (f.rows.getD j default).date) :
    (calculate_purchase_frequency f uid).map Prod.fst =
      (sortPerm f).map (fun a => f.rows.getD a default) ∧
    ∃ ki kj : Nat, ki < kj ∧ (sortPerm f).getD ki 0 = i ∧
      (sortPerm f).getD kj 0 = j := by
  have hi : i < f.rows.length := lt_trans hij hj
  constructor
  · unfold calculate_purchase_frequency calcFreqWith
    apply map_fst_zipWith_pair
    rw [prevDates_length]
  · have hvlen : (f.rows.map (fun r => r.date)).length = f.rows.length := by
      simp
    have hsp : sortPerm f =
        Npy.insArgSeg (f.rows.map (fun r => r.date))
          (List.range f.rows.length) := by
      unfold sortPerm
      rw [argsortQuick_small _ (by rw [hvlen]; exact h16), hvlen]
    obtain ⟨hp, hperm⟩ := insArgSeg_range (f.rows.map (fun r => r.date))
      f.rows.length
    rw [← hsp] at hp hperm
    have hmemi : i ∈ sortPerm f :=
      hperm.mem_iff.mpr (List.mem_range.mpr hi)
    have hmemj : j ∈ sortPerm f :=
      hperm.mem_iff.mpr (List.mem_range.mpr hj)
    obtain ⟨ki, hki⟩ := List.mem_iff_get.mp hmemi
    obtain ⟨kj, hkj⟩ := List.mem_iff_get.mp hmemj
    have hvi : (f.rows.map (fun r => r.date)).getD i 0 =
        (f.rows.getD i default).date := by
      rw [List.getD_eq_getElem _ _ (by rw [hvlen]; exact hi),
        List.getElem_map, List.getD_eq_getElem _ _ hi]
    have hvj : (f.rows.map (fun r => r.date)).getD j 0 =
        (f.rows.getD j default).date := by
      rw [List.getD_eq_getElem _ _ (by rw [hvlen]; exact hj),
        List.getElem_map, List.getD_eq_getElem _ _ hj]
    have hpair := List.pairwise_iff_getElem.mp hp
    have hkij : (ki : Nat) < kj := by
      rcases Nat.lt_trichotomy ki kj with h1 | h2 | h3
      · exact h1
      · exfalso
        apply Nat.lt_irrefl i
        have : i = j := by
          rw [← hki, ← hkj]
          congr 1
          exact Fin.ext h2
        omega
      · exfalso
        have := hpair kj ki kj.isLt ki.isLt h3
        rw [← List.get_eq_getElem, ← List.get_eq_getElem, hki, hkj] at this
        rw [hvi, hvj] at this
        omega
    refine ⟨ki, kj, hkij, ?_, ?_⟩
    · rw [List.getD_eq_getElem _ _ ki.isLt, ← List.get_eq_getElem]
      exact hki
    · rw [List.getD_eq_getElem _ _ kj.isLt, ← List.get_eq_getElem]
      exact hkj

/-- C4, amended claim witness: two equal-timestamp records stay in input
order. -/
theorem sort_stable_upto_sixteen_witness :
    (calculate_purchase_frequency framePair none).map Prod.fst =
      (sortPerm framePair).map (fun a => framePair.rows.getD a default) ∧
    ∃ ki kj : Nat, ki < kj ∧ (sortPerm framePair).getD ki 0 = 0 ∧
      (sortPerm framePair).getD kj 0 = 1 :=
  sort_stable_upto_sixteen framePair none (by decide) 0 1 (by decide)
    (by decide) (by decide)


/-! ### The square-encoded comparisons realize the real-valued tests

`np.std` is a real square root; the embedding encodes the two threshold
comparisons by sign analysis and squaring.  These lemmas verify that the
Boolean encodings agree exactly with the real-number comparisons. -/

theorem npVar_val (l : List Q) (hl : l ≠ []) :
    (npVar l).val =
      (l.map (fun x => (x.val - (npMean l).val) ^ 2)).sum / (l.length : ℚ) := by
  have hlen : 0 < l.length := List.length_pos.mpr hl
  unfold npVar
  rw [Q.val_divInt_pos _ _ (by exact_mod_cast hlen), Q.val_listSum,
    List.map_map]
  have : (Q.val ∘ fun x => Q.mul (Q.sub x (npMean l)) (Q.sub x (npMean l))) =
      fun x => (x.val - (npMean l).val) ^ 2 := by
    funext x
    show (Q.mul (Q.sub x (npMean l)) (Q.sub x (npMean l))).val = _
    rw [Q.val_mul, Q.val_sub]
    ring
  rw [this]
  push_cast
  ring

theorem npVar_val_nonneg (l : List Q) : 0 ≤ (npVar l).val := by
  cases hl : l with
  | nil =>
    show (0 : ℚ) ≤ Q.val ((Q.listSum (List.map _ [])).divInt 0)
    simp [Q.listSum, Q.divInt, Q.val, Q.ofInt]
  | cons x xs =>
    rw [← hl, npVar_val l (by rw [hl]; exact List.cons_ne_nil x xs)]
    apply div_nonneg
    · apply List.sum_nonneg
      intro y hy
      obtain ⟨z, hz, rfl⟩ := List.mem_map.mp hy
      positivity
    · positivity

/-- `stdLE l c = true` iff `np.std(l) <= c` over the reals. -/
theorem stdLE_iff (l : List Q) (c : Q) :
    stdLE l c = true ↔ Real.sqrt ((npVar l).val : ℝ) ≤ (c.val : ℝ) := by
  unfold stdLE
  rw [Bool.and_eq_true, Q.ble_iff, Q.ble_iff, Q.val_mul, Q.val_ofInt,
    Real.sqrt_le_iff]
  constructor
  · rintro ⟨h1, h2⟩
    refine ⟨by exact_mod_cast h1, ?_⟩
    rw [pow_two]
    exact_mod_cast h2
  · rintro ⟨h1, h2⟩
    rw [pow_two] at h2
    exact ⟨by exact_mod_cast h1, by exact_mod_cast h2⟩

/-- `stdOverMeanLE l c = true` iff `np.std(l) / np.mean(l) <= c` over the
reals, whenever the mean is nonzero (the zero-mean case is the `inf`/`nan`
policy proved in `stdOverMeanLE_false_of_mean_zero`). -/
theorem stdOverMeanLE_iff (l : List Q) (c : Q) (hm : (npMean l).val ≠ 0) :
    stdOverMeanLE l c = true ↔
      Real.sqrt ((npVar l).val : ℝ) / ((npMean l).val : ℝ) ≤ (c.val : ℝ) := by
  rcases lt_trichotomy (npMean l).val 0 with hneg | h0 | hpos
  · have hb1 : Q.blt (Q.ofInt 0) (npMean l) = false := by
      rw [← Bool.not_eq_true, Q.blt_iff, Q.val_ofInt]
      push_cast
      intro hcon
      linarith
    have hb2 : Q.blt (npMean l) (Q.ofInt 0) = true := by
      rw [Q.blt_iff, Q.val_ofInt]
      push_cast
      exact hneg
    have hMneg : ((npMean l).val : ℝ) < 0 := by exact_mod_cast hneg
    unfold stdOverMeanLE
    rw [hb1, hb2, if_neg Bool.false_ne_true, if_pos rfl]
    rw [Bool.or_eq_true, Q.ble_iff, Q.ble_iff, Q.val_mul, Q.val_mul,
      Q.val_mul, Q.val_ofInt, Int.cast_zero, div_le_iff_of_neg hMneg]
    constructor
    · rintro (h | h)
      · calc (c.val : ℝ) * ((npMean l).val : ℝ) ≤ 0 := by exact_mod_cast h
          _ ≤ Real.sqrt ((npVar l).val : ℝ) := Real.sqrt_nonneg _
      · by_cases hcm : (c.val * (npMean l).val : ℚ) ≤ 0
        · calc (c.val : ℝ) * ((npMean l).val : ℝ) ≤ 0 := by exact_mod_cast hcm
            _ ≤ Real.sqrt ((npVar l).val : ℝ) := Real.sqrt_nonneg _
        · push_neg at hcm
          have hx : (0 : ℝ) < (c.val : ℝ) * ((npMean l).val : ℝ) := by
            exact_mod_cast hcm
          rw [Real.le_sqrt' hx, pow_two]
          exact_mod_cast h
    · intro h
      by_cases hcm : (c.val * (npMean l).val : ℚ) ≤ 0
      · exact Or.inl hcm
      · push_neg at hcm
        right
        have hx : (0 : ℝ) < (c.val : ℝ) * ((npMean l).val : ℝ) := by
          exact_mod_cast hcm
        rw [Real.le_sqrt' hx, pow_two] at h
        exact_mod_cast h
  · exact absurd h0 hm
  · have hb1 : Q.blt (Q.ofInt 0) (npMean l) = true := by
      rw [Q.blt_iff, Q.val_ofInt]
      push_cast
      exact hpos
    have hMpos : (0 : ℝ) < ((npMean l).val : ℝ) := by exact_mod_cast hpos
    unfold stdOverMeanLE
    rw [hb1, if_pos rfl]
    rw [Bool.and_eq_true, Q.ble_iff, Q.ble_iff, Q.val_mul, Q.val_mul,
      Q.val_mul, Q.val_ofInt, Int.cast_zero, div_le_iff₀ hMpos,
      Real.sqrt_le_iff]
    constructor
    · rintro ⟨h1, h2⟩
      refine ⟨by exact_mod_cast h1, ?_⟩
      rw [pow_two]
      exact_mod_cast h2
    · rintro ⟨h1, h2⟩
      rw [pow_two] at h2
      exact ⟨by exact_mod_cast h1, by exact_mod_cast h2⟩

end Homebase
